import Mathlib

/-!
Verification of the packet framer in `src/main/network/PacketStream.ts`.

The framer is a Node `Transform` stream holding a list of buffered chunks
(`#buf : Buffer[]`) and a cached byte count (`#bufLen`).  `_transform`
appends an incoming chunk, then repeatedly calls `#tryReadPacket`, which
reads a 3-byte header (1 byte type, 2 byte little-endian length) from the
first buffered chunk and, when the full payload is present, emits a
`{type, data}` packet and trims the consumed bytes.

Bytes are modelled as `Nat` values (well-formed buffers hold values
`≤ 255`); a Node `Buffer` is a `List Nat`; `Buffer.concat` is
`List.flatten`; `subarray` is `take`/`drop`.  The fallible
`readUInt8`/`readUInt16LE` (which throw `RangeError` out of bounds)
return `Option`.
-/

namespace PacketStream

/-- `HEADER_LENGTH` from the source: 1 byte type, 2 byte unsigned LE length. -/
def HEADER_LENGTH : Nat := 3

/-- A decoded packet `{ type: number; data: Buffer }`. -/
structure Packet where
  type : Nat
  data : List Nat
deriving DecidableEq, Repr

/-- The framer's private state: `#buf` (list of buffered chunks) and
`#bufLen` (cached total byte count). -/
structure State where
  buf : List (List Nat)
  bufLen : Nat
deriving DecidableEq, Repr

/-- The constructor leaves `#buf = []`, `#bufLen = 0`. -/
def initState : State := ⟨[], 0⟩

/-- `Buffer.prototype.readUInt8(off)`: returns the byte at `off`, or
throws `RangeError` (modelled as `none`) when out of bounds. -/
def readUInt8 (b : List Nat) (off : Nat) : Option Nat :=
  if off + 1 ≤ b.length then some (b.getD off 0) else none

/-- `Buffer.prototype.readUInt16LE(off)`: little-endian 16-bit read at
`off`, or `RangeError` (`none`) when fewer than two bytes remain. -/
def readUInt16LE (b : List Nat) (off : Nat) : Option Nat :=
  if off + 2 ≤ b.length then some (b.getD off 0 + 256 * b.getD (off + 1) 0) else none

/-- The body of `#tryReadPacket` past the header-length guard and the
optional concat: reads the header from `buf[0]`, and when the full
payload is buffered trims the header (`buf[0].subarray(HEADER_LENGTH)`),
concats the rest into one buffer, pushes the packet, and trims the
payload.  `none` models a `RangeError` from the header reads. -/
def tryReadPacketFrom (buf : List (List Nat)) (bufLen : Nat) :
    Option (Option Packet × State) :=
  match readUInt8 (buf.headD []) 0, readUInt16LE (buf.headD []) 1 with
  | some packetType, some packetLength =>
    if bufLen < HEADER_LENGTH + packetLength then
      -- Wait for complete packet data before reading packet
      some (none, ⟨buf, bufLen⟩)
    else
      some (some ⟨packetType,
          (((buf.headD []).drop HEADER_LENGTH :: buf.tail).flatten).take packetLength⟩,
        ⟨[(((buf.headD []).drop HEADER_LENGTH :: buf.tail).flatten).drop packetLength],
          bufLen - (HEADER_LENGTH + packetLength)⟩)
  | _, _ => none

/-- `#tryReadPacket(shouldConcatHeader)`.  Returns `none` on a
`RangeError` from the header reads; otherwise `some (emitted?, st')`
where `emitted? = some p` models `this.push(p)` followed by `return true`
and `emitted? = none` models `return false`. -/
def tryReadPacket (st : State) (shouldConcatHeader : Bool) :
    Option (Option Packet × State) :=
  if st.bufLen < HEADER_LENGTH then
    -- Wait for complete header before reading packet
    some (none, st)
  else
    -- Concat buffer in case the header is in multiple chunks
    tryReadPacketFrom (if shouldConcatHeader then [st.buf.flatten] else st.buf) st.bufLen

theorem tryReadPacketFrom_bufLen_lt (buf : List (List Nat)) (bufLen : Nat)
    (p : Packet) (st' : State)
    (h : tryReadPacketFrom buf bufLen = some (some p, st')) : st'.bufLen < bufLen := by
  unfold tryReadPacketFrom at h
  split at h
  · rename_i packetType packetLength h8 h16
    split at h
    · simp at h
    · rename_i hfull
      simp only [Option.some.injEq, Prod.mk.injEq] at h
      obtain ⟨-, h2⟩ := h
      subst h2
      simp only [HEADER_LENGTH] at hfull ⊢
      omega
  · simp at h

/-- A successful packet read strictly shrinks `#bufLen`
(`this.#bufLen -= HEADER_LENGTH + packetLength` with the guard
`HEADER_LENGTH + packetLength ≤ this.#bufLen`). -/
theorem tryReadPacket_bufLen_lt (st : State) (sc : Bool) (p : Packet) (st' : State)
    (h : tryReadPacket st sc = some (some p, st')) : st'.bufLen < st.bufLen := by
  unfold tryReadPacket at h
  split at h
  · simp at h
  · exact tryReadPacketFrom_bufLen_lt _ _ p st' h

/-- The `while (this.#tryReadPacket(shouldConcatHeader))` loop of
`_transform`, with `shouldConcatHeader = false` after the first
iteration.  Returns the packets pushed, in order, and the final state;
`none` propagates a `RangeError`.  The loop runs at most `#bufLen`
iterations (each successful read consumes at least the 3 header bytes),
so it is phrased with an explicit iteration bound `fuel`; `_transform`
supplies `#bufLen + 1` after the push, which `readLoop_spec` proves is
never exhausted. -/
def readLoop (fuel : Nat) (st : State) (sc : Bool) : Option (List Packet × State) :=
  match fuel with
  | 0 => none
  | fuel + 1 =>
    match tryReadPacket st sc with
    | none => none
    | some (none, st') => some ([], st')
    | some (some p, st') =>
      match readLoop fuel st' false with
      | none => none
      | some (ps, st'') => some (p :: ps, st'')

/-- Result of one `_transform` call: the packets pushed and the state
left behind, or the error passed to `callback` together with the state
at the point of failure. -/
inductive FeedResult where
  | ok (packets : List Packet) (st : State)
  | error (msg : String) (st : State)
deriving DecidableEq, Repr

/-- The byte-chunk path of `_transform`: push the chunk, set
`shouldConcatHeader` from the pre-push `#bufLen`, add the chunk length
to `#bufLen`, then run the read loop. -/
def transformBytes (chunkBuf : List Nat) (st : State) : FeedResult :=
  match readLoop (st.bufLen + chunkBuf.length + 1)
      ⟨st.buf ++ [chunkBuf], st.bufLen + chunkBuf.length⟩
      (decide (st.bufLen < HEADER_LENGTH)) with
  | some (ps, st') => .ok ps st'
  | none => .error "RangeError"
      ⟨st.buf ++ [chunkBuf], st.bufLen + chunkBuf.length⟩

/-- A `_transform` argument: a `Buffer`, a `string` (decoded with the
`encoding` argument), or any other (structured) value. -/
inductive Chunk where
  | bytes (b : List Nat)
  | str (s : String)
  | obj

/-- `_transform(chunk, encoding, callback)`: a `Buffer` is used as is, a
`string` is converted via `Buffer.from(chunk, encoding)` (the encoding's
semantics is the supplied function `enc`), and anything else invokes the
callback with an error before any state is touched. -/
def transform (chunk : Chunk) (enc : String → List Nat) (st : State) : FeedResult :=
  match chunk with
  | .bytes b => transformBytes b st
  | .str s => transformBytes (enc s) st
  | .obj => .error "PacketStream does not support writable object mode." st

/-- Feeding a sequence of chunks through `_transform`, collecting
all pushed packets; stops at the first error. -/
def feedAll (chunks : List (List Nat)) (st : State) : FeedResult :=
  match chunks with
  | [] => .ok [] st
  | c :: cs =>
    match transformBytes c st with
    | .ok ps st' =>
      match feedAll cs st' with
      | .ok ps' st'' => .ok (ps ++ ps') st''
      | .error m stE => .error m stE
    | .error m stE => .error m stE

/-! ### Wire-format reference encoder and decoder

The wire format from the spec (§6): `[type, L % 256, L / 256] ++ payload`,
`L` = payload length.  `decodeStep`/`decodeAll` decode a *flat* byte
sequence greedily; the chunked implementation is proved to refine them. -/

/-- Encode one packet per the wire format. -/
def encodePacket (p : Packet) : List Nat :=
  p.type :: p.data.length % 256 :: p.data.length / 256 :: p.data

/-- Encode a packet sequence: concatenation with no separator. -/
def encodeAll (ps : List Packet) : List Nat :=
  (ps.map encodePacket).flatten

/-- A packet expressible in the wire format: type tag 0–255, payload
length 0–65535, payload bytes 0–255. -/
def ValidPacket (p : Packet) : Prop :=
  p.type ≤ 255 ∧ p.data.length ≤ 65535 ∧ ∀ b ∈ p.data, b ≤ 255

instance (p : Packet) : Decidable (ValidPacket p) := by
  unfold ValidPacket
  exact inferInstance

/-- Decode one packet from the front of a flat byte sequence, if a
complete header and payload are present. -/
def decodeStep (bs : List Nat) : Option (Packet × List Nat) :=
  if HEADER_LENGTH ≤ bs.length then
    if HEADER_LENGTH + (bs.getD 1 0 + 256 * bs.getD 2 0) ≤ bs.length then
      some (⟨bs.getD 0 0, (bs.drop HEADER_LENGTH).take (bs.getD 1 0 + 256 * bs.getD 2 0)⟩,
        (bs.drop HEADER_LENGTH).drop (bs.getD 1 0 + 256 * bs.getD 2 0))
    else none
  else none

theorem decodeStep_rest_lt (bs : List Nat) (p : Packet) (rest : List Nat)
    (h : decodeStep bs = some (p, rest)) : rest.length < bs.length := by
  unfold decodeStep at h
  split at h
  · split at h
    · simp only [Option.some.injEq, Prod.mk.injEq] at h
      obtain ⟨-, h2⟩ := h
      subst h2
      simp only [List.length_drop]
      unfold HEADER_LENGTH at *
      omega
    · simp at h
  · simp at h

/-- Greedily decode every complete packet from a flat byte sequence,
returning the packets in order and the undecodable remainder. -/
def decodeAll (bs : List Nat) : List Packet × List Nat :=
  match h : decodeStep bs with
  | none => ([], bs)
  | some (p, rest) =>
    have : rest.length < bs.length := decodeStep_rest_lt bs p rest h
    ((p :: (decodeAll rest).1), (decodeAll rest).2)
termination_by bs.length

theorem getD_append_left {l₁ l₂ : List Nat} {n : Nat} (h : n < l₁.length) :
    (l₁ ++ l₂).getD n 0 = l₁.getD n 0 := by
  simp [List.getD_eq_getElem?_getD, List.getElem?_append_left h]

/-- With the header bytes contiguous in the first buffered chunk,
`#tryReadPacket`'s body behaves exactly as one `decodeStep` on the
flattened buffer: it emits the decoded packet and keeps the remainder
in a single chunk, or consumes nothing when no complete packet fits. -/
theorem tryReadPacketFrom_spec (buf : List (List Nat)) (bufLen : Nat)
    (hlen : bufLen = buf.flatten.length)
    (hhead : HEADER_LENGTH ≤ (buf.headD []).length) :
    tryReadPacketFrom buf bufLen =
      match decodeStep buf.flatten with
      | some (p, rest) => some (some p, ⟨[rest], rest.length⟩)
      | none => some (none, ⟨buf, bufLen⟩) := by
  obtain ⟨first, tail, rfl⟩ : ∃ first tail, buf = first :: tail := by
    cases buf with
    | nil => simp [HEADER_LENGTH] at hhead
    | cons a t => exact ⟨a, t, rfl⟩
  simp only [List.headD, HEADER_LENGTH] at hhead
  simp only [List.flatten_cons, List.length_append] at hlen
  have h0 : (first ++ tail.flatten).getD 0 0 = first.getD 0 0 :=
    getD_append_left (by omega)
  have h1 : (first ++ tail.flatten).getD 1 0 = first.getD 1 0 :=
    getD_append_left (by omega)
  have h2 : (first ++ tail.flatten).getD 2 0 = first.getD 2 0 :=
    getD_append_left (by omega)
  have hdrop : (first ++ tail.flatten).drop 3 = first.drop 3 ++ tail.flatten :=
    List.drop_append_of_le_length (by omega)
  have h11 : first.getD (1 + 1) 0 = first.getD 2 0 := rfl
  unfold tryReadPacketFrom decodeStep readUInt8 readUInt16LE
  simp only [List.headD, List.flatten_cons, List.tail_cons, h0, h1, h2, hdrop,
    List.length_append, HEADER_LENGTH]
  rw [if_pos (by omega : (0:Nat) + 1 ≤ first.length),
    if_pos (by omega : 1 + 2 ≤ first.length)]
  dsimp only
  rw [h11, if_pos (by omega : 3 ≤ first.length + tail.flatten.length)]
  by_cases hfull : bufLen < 3 + (first.getD 1 0 + 256 * first.getD 2 0)
  · rw [if_pos hfull, if_neg (by omega)]
  · rw [if_neg hfull, if_pos (by omega)]
    dsimp only
    have hrestlen : (List.drop (first.getD 1 0 + 256 * first.getD 2 0)
        (List.drop 3 first ++ tail.flatten)).length
        = bufLen - (3 + (first.getD 1 0 + 256 * first.getD 2 0)) := by
      simp only [List.length_drop, List.length_append]
      omega
    rw [hrestlen]

theorem flatten_single (x : List Nat) : ([x] : List (List Nat)).flatten = x := by
  simp

theorem decodeStep_length_ge (bs : List Nat) (p : Packet) (rest : List Nat)
    (h : decodeStep bs = some (p, rest)) : HEADER_LENGTH ≤ bs.length := by
  unfold decodeStep at h
  by_contra hlt
  rw [if_neg hlt] at h
  simp at h

/-- When a complete packet is decodable from the flattened buffer,
`#tryReadPacket` emits exactly that packet and leaves the remainder as
the single buffered chunk. -/
theorem tryReadPacket_decode_some (st : State) (sc : Bool) (p : Packet) (rest : List Nat)
    (hlen : st.bufLen = st.buf.flatten.length)
    (hhead : sc = false → HEADER_LENGTH ≤ st.bufLen → HEADER_LENGTH ≤ (st.buf.headD []).length)
    (hdec : decodeStep st.buf.flatten = some (p, rest)) :
    tryReadPacket st sc = some (some p, ⟨[rest], rest.length⟩) := by
  have hge : HEADER_LENGTH ≤ st.buf.flatten.length := decodeStep_length_ge _ _ _ hdec
  unfold tryReadPacket
  rw [if_neg (by omega)]
  cases sc with
  | true =>
    rw [if_pos rfl]
    rw [tryReadPacketFrom_spec [st.buf.flatten] st.bufLen
      (by rw [flatten_single]; exact hlen)
      (by simp only [List.headD]; omega)]
    rw [flatten_single, hdec]
  | false =>
    rw [if_neg (by simp)]
    rw [tryReadPacketFrom_spec st.buf st.bufLen hlen (hhead rfl (by omega))]
    rw [hdec]

/-- When no complete packet is decodable, `#tryReadPacket` returns
`false`, preserves the buffered bytes and the byte count, and leaves a
first chunk holding the whole header whenever one is buffered. -/
theorem tryReadPacket_decode_none (st : State) (sc : Bool)
    (hlen : st.bufLen = st.buf.flatten.length)
    (hhead : sc = false → HEADER_LENGTH ≤ st.bufLen → HEADER_LENGTH ≤ (st.buf.headD []).length)
    (hdec : decodeStep st.buf.flatten = none) :
    ∃ buf', tryReadPacket st sc = some (none, ⟨buf', st.bufLen⟩) ∧
      buf'.flatten = st.buf.flatten ∧
      (HEADER_LENGTH ≤ st.bufLen → HEADER_LENGTH ≤ (buf'.headD []).length) := by
  by_cases hge : st.bufLen < HEADER_LENGTH
  · refine ⟨st.buf, ?_, rfl, by omega⟩
    unfold tryReadPacket
    rw [if_pos hge]
  · cases sc with
    | true =>
      refine ⟨[st.buf.flatten], ?_, flatten_single _, ?_⟩
      · unfold tryReadPacket
        rw [if_neg hge, if_pos rfl]
        rw [tryReadPacketFrom_spec [st.buf.flatten] st.bufLen
          (by rw [flatten_single]; exact hlen)
          (by simp only [List.headD]; omega)]
        rw [flatten_single, hdec]
      · simp only [List.headD]
        omega
    | false =>
      refine ⟨st.buf, ?_, rfl, fun h => hhead rfl h⟩
      unfold tryReadPacket
      rw [if_neg hge, if_neg (by simp)]
      rw [tryReadPacketFrom_spec st.buf st.bufLen hlen (hhead rfl (by omega))]
      rw [hdec]

theorem decodeAll_none (bs : List Nat) (h : decodeStep bs = none) :
    decodeAll bs = ([], bs) := by
  rw [decodeAll]
  split
  · rfl
  · rename_i heq
    rw [h] at heq
    cases heq

theorem decodeAll_some (bs : List Nat) (p : Packet) (rest : List Nat)
    (h : decodeStep bs = some (p, rest)) :
    decodeAll bs = (p :: (decodeAll rest).1, (decodeAll rest).2) := by
  rw [decodeAll]
  split
  · rename_i heq
    rw [h] at heq
    cases heq
  · rename_i p' rest' heq
    rw [h] at heq
    cases heq
    rfl

theorem readLoop_no_packet (fuel : Nat) (st : State) (sc : Bool) (st' : State)
    (h : tryReadPacket st sc = some (none, st')) :
    readLoop (fuel + 1) st sc = some ([], st') := by
  unfold readLoop
  rw [h]

theorem readLoop_packet (fuel : Nat) (st : State) (sc : Bool) (p : Packet) (st' : State)
    (h : tryReadPacket st sc = some (some p, st')) :
    readLoop (fuel + 1) st sc =
      match readLoop fuel st' false with
      | none => none
      | some (ps, st'') => some (p :: ps, st'') := by
  dsimp only [readLoop]
  rw [h]

/-- The `while` loop of `_transform` emits exactly the packets that
`decodeAll` decodes from the flattened buffer, never hits a
`RangeError`, and leaves the undecodable remainder buffered with the
byte count in sync and any buffered header contiguous in the first
chunk. -/
theorem readLoop_spec (fuel : Nat) (st : State) (sc : Bool)
    (hfuel : st.bufLen < fuel)
    (hlen : st.bufLen = st.buf.flatten.length)
    (hhead : sc = false → HEADER_LENGTH ≤ st.bufLen → HEADER_LENGTH ≤ (st.buf.headD []).length) :
    ∃ buf', readLoop fuel st sc
        = some ((decodeAll st.buf.flatten).1, ⟨buf', (decodeAll st.buf.flatten).2.length⟩) ∧
      buf'.flatten = (decodeAll st.buf.flatten).2 ∧
      (HEADER_LENGTH ≤ (decodeAll st.buf.flatten).2.length
        → HEADER_LENGTH ≤ (buf'.headD []).length) := by
  induction fuel generalizing st sc with
  | zero => omega
  | succ fuel ih =>
    cases hstep : decodeStep st.buf.flatten with
    | none =>
      obtain ⟨buf', hrun, hflat, hhd⟩ := tryReadPacket_decode_none st sc hlen hhead hstep
      refine ⟨buf', ?_, ?_, ?_⟩
      · rw [readLoop_no_packet fuel st sc _ hrun, decodeAll_none _ hstep, ← hlen]
      · rw [decodeAll_none _ hstep]
        exact hflat
      · rw [decodeAll_none _ hstep]
        simpa [← hlen] using hhd
    | some pr =>
      obtain ⟨p, rest⟩ := pr
      have hrun := tryReadPacket_decode_some st sc p rest hlen hhead hstep
      have hlt : rest.length < st.bufLen := by
        rw [hlen]
        exact decodeStep_rest_lt _ _ _ hstep
      obtain ⟨buf', hrec, hflat, hhd⟩ := ih ⟨[rest], rest.length⟩ false
        (by show rest.length < fuel; omega)
        (by simp only [flatten_single])
        (by intro _ h; simpa [List.headD] using h)
      simp only [flatten_single] at hrec hflat hhd
      refine ⟨buf', ?_, ?_, ?_⟩
      · rw [readLoop_packet fuel st sc p _ hrun, hrec, decodeAll_some _ _ _ hstep]
      · rw [decodeAll_some _ _ _ hstep]
        exact hflat
      · rw [decodeAll_some _ _ _ hstep]
        exact hhd

/-- Decoding one packet only looks at the front of the stream: extra
bytes appended behind it decode to the same packet. -/
theorem decodeStep_append_some (bs c : List Nat) (p : Packet) (rest : List Nat)
    (h : decodeStep bs = some (p, rest)) :
    decodeStep (bs ++ c) = some (p, rest ++ c) := by
  have h3 : HEADER_LENGTH ≤ bs.length := decodeStep_length_ge _ _ _ h
  unfold decodeStep at h ⊢
  rw [if_pos h3] at h
  by_cases hfull : HEADER_LENGTH + (bs.getD 1 0 + 256 * bs.getD 2 0) ≤ bs.length
  · rw [if_pos hfull] at h
    simp only [Option.some.injEq, Prod.mk.injEq] at h
    obtain ⟨hp, hrest⟩ := h
    simp only [HEADER_LENGTH] at h3 hfull hp hrest ⊢
    have g0 : (bs ++ c).getD 0 0 = bs.getD 0 0 := getD_append_left (by omega)
    have g1 : (bs ++ c).getD 1 0 = bs.getD 1 0 := getD_append_left (by omega)
    have g2 : (bs ++ c).getD 2 0 = bs.getD 2 0 := getD_append_left (by omega)
    have hdrop : (bs ++ c).drop 3 = bs.drop 3 ++ c :=
      List.drop_append_of_le_length (by omega)
    rw [g1, g2]
    rw [if_pos (show (3:Nat) ≤ (bs ++ c).length by
      simp only [List.length_append]; omega)]
    rw [if_pos (show 3 + (bs.getD 1 0 + 256 * bs.getD 2 0) ≤ (bs ++ c).length by
      simp only [List.length_append]; omega)]
    rw [g0, hdrop,
      List.take_append_of_le_length (by simp only [List.length_drop]; omega),
      List.drop_append_of_le_length (by simp only [List.length_drop]; omega)]
    rw [hp, hrest]
  · rw [if_neg hfull] at h
    cases h

/-- Greedy decoding distributes over appending bytes: the packets of
`bs ++ c` are those of `bs` followed by those of the remainder of `bs`
extended with `c`. -/
theorem decodeAll_append (n : Nat) (bs c : List Nat) (hn : bs.length ≤ n) :
    decodeAll (bs ++ c)
      = ((decodeAll bs).1 ++ (decodeAll ((decodeAll bs).2 ++ c)).1,
         (decodeAll ((decodeAll bs).2 ++ c)).2) := by
  induction n generalizing bs with
  | zero =>
    have hnone : decodeStep bs = none := by
      cases hstep : decodeStep bs with
      | none => rfl
      | some pr =>
        have := decodeStep_length_ge _ _ _ (by rw [hstep])
        simp only [HEADER_LENGTH] at this
        omega
    rw [decodeAll_none _ hnone]
    simp
  | succ n ih =>
    cases hstep : decodeStep bs with
    | none =>
      rw [decodeAll_none _ hstep]
      simp
    | some pr =>
      obtain ⟨p, rest⟩ := pr
      have hlt : rest.length < bs.length := decodeStep_rest_lt _ _ _ hstep
      rw [decodeAll_some _ _ _ hstep,
        decodeAll_some _ _ _ (decodeStep_append_some bs c p rest hstep),
        ih rest (by omega)]
      simp

/-- The remainder left by greedy decoding never holds a complete
packet. -/
theorem decodeStep_decodeAll_snd (n : Nat) (bs : List Nat) (hn : bs.length ≤ n) :
    decodeStep (decodeAll bs).2 = none := by
  induction n generalizing bs with
  | zero =>
    have hnone : decodeStep bs = none := by
      cases hstep : decodeStep bs with
      | none => rfl
      | some pr =>
        have := decodeStep_length_ge _ _ _ (by rw [hstep])
        simp only [HEADER_LENGTH] at this
        omega
    rw [decodeAll_none _ hnone]
    exact hnone
  | succ n ih =>
    cases hstep : decodeStep bs with
    | none =>
      rw [decodeAll_none _ hstep]
      exact hstep
    | some pr =>
      obtain ⟨p, rest⟩ := pr
      have hlt : rest.length < bs.length := decodeStep_rest_lt _ _ _ hstep
      rw [decodeAll_some _ _ _ hstep]
      exact ih rest (by omega)

/-- Invariant maintained by `_transform` between feeds: `#bufLen`
caches the flattened buffer's length, any buffered complete header is
contiguous in the first chunk, and no complete packet is left
unemitted. -/
def Inv (st : State) : Prop :=
  st.bufLen = st.buf.flatten.length ∧
  (HEADER_LENGTH ≤ st.bufLen → HEADER_LENGTH ≤ (st.buf.headD []).length) ∧
  decodeStep st.buf.flatten = none

instance (st : State) : Decidable (Inv st) := by
  unfold Inv
  exact inferInstance

theorem Inv_initState : Inv initState := by decide

/-- One byte feed from a length-synced, header-contiguous state: the
packets pushed are exactly those `decodeAll` finds in the old buffered
bytes followed by the chunk, and the remainder stays buffered. -/
theorem transformBytes_spec (c : List Nat) (st : State)
    (hlen : st.bufLen = st.buf.flatten.length)
    (hhead : HEADER_LENGTH ≤ st.bufLen → HEADER_LENGTH ≤ (st.buf.headD []).length) :
    ∃ buf', transformBytes c st
        = .ok (decodeAll (st.buf.flatten ++ c)).1
            ⟨buf', (decodeAll (st.buf.flatten ++ c)).2.length⟩ ∧
      buf'.flatten = (decodeAll (st.buf.flatten ++ c)).2 ∧
      (HEADER_LENGTH ≤ (decodeAll (st.buf.flatten ++ c)).2.length
        → HEADER_LENGTH ≤ (buf'.headD []).length) := by
  have hpushflat : (State.mk (st.buf ++ [c]) (st.bufLen + c.length)).buf.flatten
      = st.buf.flatten ++ c := by
    simp
  obtain ⟨buf', hrun, hflat, hhd⟩ := readLoop_spec (st.bufLen + c.length + 1)
    ⟨st.buf ++ [c], st.bufLen + c.length⟩ (decide (st.bufLen < HEADER_LENGTH))
    (Nat.lt_succ_self _)
    (by simp only [hpushflat, List.length_append]; omega)
    (by
      intro hdec hge
      have h3 : HEADER_LENGTH ≤ st.bufLen := by
        by_contra hlt
        simp [hlt] at hdec
      cases hb : st.buf with
      | nil =>
        rw [hb] at hlen
        simp only [List.flatten_nil, List.length_nil] at hlen
        simp only [HEADER_LENGTH] at h3
        omega
      | cons a t =>
        have ha := hhead h3
        rw [hb] at ha
        simpa [List.headD, List.cons_append] using ha)
  rw [hpushflat] at hrun hflat hhd
  refine ⟨buf', ?_, hflat, hhd⟩
  unfold transformBytes
  rw [hrun]

/-- Feeding any chunk sequence from an `Inv` state: every feed
succeeds, the packets pushed are exactly those `decodeAll` finds in the
buffered bytes followed by all fed bytes, the remainder stays buffered
with `#bufLen` in sync, and `Inv` still holds. -/
theorem feedAll_spec (chunks : List (List Nat)) (st : State) (h : Inv st) :
    ∃ st', feedAll chunks st
        = .ok (decodeAll (st.buf.flatten ++ chunks.flatten)).1 st' ∧
      st'.buf.flatten = (decodeAll (st.buf.flatten ++ chunks.flatten)).2 ∧
      st'.bufLen = (decodeAll (st.buf.flatten ++ chunks.flatten)).2.length ∧
      Inv st' := by
  obtain ⟨hlen, hhead, hrem⟩ := h
  induction chunks generalizing st with
  | nil =>
    refine ⟨st, ?_, ?_, ?_, hlen, hhead, hrem⟩ <;>
      simp [feedAll, decodeAll_none _ hrem, hlen]
  | cons c cs ih =>
    obtain ⟨buf₁, hrun₁, hflat₁, hhd₁⟩ := transformBytes_spec c st hlen hhead
    have hlen₁ : (State.mk buf₁ (decodeAll (st.buf.flatten ++ c)).2.length).bufLen
        = (State.mk buf₁ (decodeAll (st.buf.flatten ++ c)).2.length).buf.flatten.length := by
      simp only [hflat₁]
    have hhead₁ : HEADER_LENGTH
          ≤ (State.mk buf₁ (decodeAll (st.buf.flatten ++ c)).2.length).bufLen
        → HEADER_LENGTH
          ≤ ((State.mk buf₁ (decodeAll (st.buf.flatten ++ c)).2.length).buf.headD []).length := by
      intro hge
      exact hhd₁ hge
    have hrem₁ : decodeStep
        (State.mk buf₁ (decodeAll (st.buf.flatten ++ c)).2.length).buf.flatten = none := by
      simp only [hflat₁]
      exact decodeStep_decodeAll_snd (st.buf.flatten ++ c).length _ le_rfl
    obtain ⟨st', hrun', hflat', hlen', hinv'⟩ :=
      ih ⟨buf₁, (decodeAll (st.buf.flatten ++ c)).2.length⟩ hlen₁ hhead₁ hrem₁
    dsimp only at hrun' hflat' hlen'
    rw [hflat₁] at hrun' hflat' hlen'
    have happ : decodeAll (st.buf.flatten ++ (c :: cs).flatten)
        = ((decodeAll (st.buf.flatten ++ c)).1
            ++ (decodeAll ((decodeAll (st.buf.flatten ++ c)).2 ++ cs.flatten)).1,
           (decodeAll ((decodeAll (st.buf.flatten ++ c)).2 ++ cs.flatten)).2) := by
      rw [List.flatten_cons, ← List.append_assoc]
      exact decodeAll_append (st.buf.flatten ++ c).length _ _ le_rfl
    refine ⟨st', ?_, ?_, ?_, hinv'⟩
    · unfold feedAll
      rw [hrun₁]
      dsimp only
      rw [hrun']
      dsimp only
      rw [happ]
    · rw [happ]
      exact hflat'
    · rw [happ]
      exact hlen'

theorem exists_cons3 (bs : List Nat) (h : 3 ≤ bs.length) :
    ∃ b0 b1 b2 tl, bs = b0 :: b1 :: b2 :: tl := by
  match bs with
  | b0 :: b1 :: b2 :: tl => exact ⟨b0, b1, b2, tl, rfl⟩
  | [] | [_] | [_, _] => simp at h

/-- `decodeStep` on an explicit header: type `b0`, length
`b1 + 256 * b2`, then that many payload bytes. -/
theorem decodeStep_cons3 (b0 b1 b2 : Nat) (tl : List Nat) :
    decodeStep (b0 :: b1 :: b2 :: tl)
      = if b1 + 256 * b2 ≤ tl.length then
          some (⟨b0, tl.take (b1 + 256 * b2)⟩, tl.drop (b1 + 256 * b2))
        else none := by
  unfold decodeStep
  simp only [HEADER_LENGTH, List.length_cons, List.getD_cons_succ, List.getD_cons_zero,
    List.drop_succ_cons, List.drop_zero]
  rw [if_pos (by omega)]
  by_cases hfull : b1 + 256 * b2 ≤ tl.length
  · rw [if_pos (by omega), if_pos hfull]
  · rw [if_neg (by omega), if_neg hfull]

/-- Decoding an encoded packet from the front of a stream recovers
exactly that packet. -/
theorem decodeStep_encode (p : Packet) (rest : List Nat) :
    decodeStep (encodePacket p ++ rest) = some (p, rest) := by
  unfold encodePacket
  simp only [List.cons_append]
  rw [decodeStep_cons3]
  have hL : p.data.length % 256 + 256 * (p.data.length / 256) = p.data.length :=
    Nat.mod_add_div _ _
  rw [hL]
  rw [if_pos (by simp only [List.length_append]; omega)]
  rw [List.take_append_of_le_length le_rfl, List.take_length,
    List.drop_append_of_le_length le_rfl, List.drop_length, List.nil_append]

/-- Greedy decoding of an encoded packet sequence recovers exactly the
packets, with nothing left over. -/
theorem decodeAll_encodeAll (ps : List Packet) :
    decodeAll (encodeAll ps) = (ps, []) := by
  induction ps with
  | nil =>
    rw [decodeAll_none _ (by decide)]
    rfl
  | cons p ps ih =>
    have henc : encodeAll (p :: ps) = encodePacket p ++ encodeAll ps := by
      unfold encodeAll
      simp
    rw [henc, decodeAll_some _ _ _ (decodeStep_encode p (encodeAll ps)), ih]

/-- For streams of genuine bytes, re-encoding the decoded packets and
appending the remainder reconstructs the original byte sequence: the
decoder consumes exactly the bytes of the packets it emits. -/
theorem decodeAll_recover (n : Nat) (bs : List Nat) (hn : bs.length ≤ n)
    (hb : ∀ b ∈ bs, b ≤ 255) :
    encodeAll (decodeAll bs).1 ++ (decodeAll bs).2 = bs := by
  induction n generalizing bs with
  | zero =>
    have hnone : decodeStep bs = none := by
      cases hstep : decodeStep bs with
      | none => rfl
      | some pr =>
        have := decodeStep_length_ge _ _ _ (by rw [hstep])
        simp only [HEADER_LENGTH] at this
        omega
    rw [decodeAll_none _ hnone]
    rfl
  | succ n ih =>
    cases hstep : decodeStep bs with
    | none =>
      rw [decodeAll_none _ hstep]
      rfl
    | some pr =>
      obtain ⟨p, rest⟩ := pr
      have h3 : 3 ≤ bs.length := by
        have := decodeStep_length_ge _ _ _ hstep
        simpa [HEADER_LENGTH] using this
      obtain ⟨b0, b1, b2, tl, rfl⟩ := exists_cons3 bs h3
      rw [decodeStep_cons3] at hstep
      by_cases hfull : b1 + 256 * b2 ≤ tl.length
      · rw [if_pos hfull] at hstep
        simp only [Option.some.injEq, Prod.mk.injEq] at hstep
        obtain ⟨hp, hrest⟩ := hstep
        have hb1 : b1 ≤ 255 := hb b1 (by simp)
        have hb2 : b2 ≤ 255 := hb b2 (by simp)
        have hlt : rest.length < (b0 :: b1 :: b2 :: tl).length := by
          rw [← hrest]
          simp only [List.length_drop, List.length_cons]
          omega
        have hrec := ih rest (by simp only [List.length_cons] at hlt hn; omega)
          (by
            intro b hbmem
            refine hb b ?_
            rw [← hrest] at hbmem
            have := List.mem_of_mem_drop hbmem
            simp [this])
        rw [decodeAll_some _ _ _ (by rw [decodeStep_cons3]; rw [if_pos hfull, hp, hrest])]
        have henc : encodeAll (p :: (decodeAll rest).1)
            = encodePacket p ++ encodeAll (decodeAll rest).1 := by
          unfold encodeAll
          simp
        have hplen : p.data.length = b1 + 256 * b2 := by
          rw [← hp]
          simp only [List.length_take]
          omega
        have hencp : encodePacket p = b0 :: b1 :: b2 :: p.data := by
          unfold encodePacket
          rw [hplen]
          have e1 : (b1 + 256 * b2) % 256 = b1 := by
            rw [Nat.add_mul_mod_self_left]
            omega
          have e2 : (b1 + 256 * b2) / 256 = b2 := by
            rw [Nat.add_mul_div_left _ _ (by omega : 0 < 256)]
            rw [Nat.div_eq_of_lt (by omega)]
            omega
          rw [e1, e2, ← hp]
        have hpdata : p.data = tl.take (b1 + 256 * b2) := by
          rw [← hp]
        rw [henc, hencp]
        dsimp only
        simp only [List.cons_append, List.append_assoc, List.cons.injEq, true_and]
        rw [hrec, hpdata, ← hrest]
        exact List.take_append_drop _ _
      · rw [if_neg hfull] at hstep
        cases hstep

theorem decodeStep_short (bs : List Nat) (h : bs.length < 3) : decodeStep bs = none := by
  unfold decodeStep
  rw [if_neg (by simp [HEADER_LENGTH]; omega)]

/-- A strict prefix of one encoded packet never decodes to a packet:
either the header is incomplete or the payload is. -/
theorem decodeStep_take_encode (p : Packet) (k : Nat)
    (hk : k < (encodePacket p).length) :
    decodeStep ((encodePacket p).take k) = none := by
  by_cases h3 : k < 3
  · exact decodeStep_short _ (by simp only [List.length_take]; omega)
  · obtain ⟨m, rfl⟩ : ∃ m, k = m + 3 := ⟨k - 3, by omega⟩
    unfold encodePacket at hk ⊢
    simp only [List.length_cons] at hk
    simp only [List.take_succ_cons]
    rw [decodeStep_cons3, Nat.mod_add_div]
    rw [if_neg (by simp only [List.length_take]; omega)]

/-- Encoded packets followed by an undecodable remainder decode to
exactly those packets with that remainder left over. -/
theorem decodeAll_encodeAll_append (ps : List Packet) (r : List Nat)
    (hr : decodeStep r = none) :
    decodeAll (encodeAll ps ++ r) = (ps, r) := by
  induction ps with
  | nil =>
    rw [show encodeAll [] ++ r = r from rfl, decodeAll_none _ hr]
  | cons p ps ih =>
    have henc : encodeAll (p :: ps) ++ r = encodePacket p ++ (encodeAll ps ++ r) := by
      unfold encodeAll
      simp
    rw [henc, decodeAll_some _ _ _ (decodeStep_encode p (encodeAll ps ++ r)), ih]

/-! ### Claim theorems -/

/-- C1: for every packet sequence encoded per the wire format and
concatenated into one byte sequence, and every partition of those bytes
into feed chunks, feeding the chunks in order emits exactly the
packets, in order, with identical type and data — independently of the
partition (which enters only through its concatenation) — and leaves
the buffer logically empty. -/
theorem C1_round_trip (ps : List Packet) (chunks : List (List Nat))
    (hv : ∀ p ∈ ps, ValidPacket p)
    (hc : chunks.flatten = encodeAll ps) :
    ∃ st', feedAll chunks initState = .ok ps st' ∧ st'.buf.flatten = [] := by
  obtain ⟨st', hrun, hflat, hlen, hinv⟩ := feedAll_spec chunks initState Inv_initState
  rw [show initState.buf.flatten = ([] : List Nat) from rfl, List.nil_append, hc,
    decodeAll_encodeAll] at hrun hflat
  exact ⟨st', hrun, hflat⟩

/-- Witness for C1: the two example packets, delivered in a 6-chunk
partition that splits both headers and the payload. -/
theorem C1_round_trip_witness :
    (∀ p ∈ [Packet.mk 1 [170, 187], Packet.mk 2 []], ValidPacket p) ∧
    ([[1], [2, 0], [170], [187, 2], [0], [0]] : List (List Nat)).flatten
      = encodeAll [Packet.mk 1 [170, 187], Packet.mk 2 []] ∧
    ∃ st', feedAll [[1], [2, 0], [170], [187, 2], [0], [0]] initState
        = .ok [Packet.mk 1 [170, 187], Packet.mk 2 []] st' ∧ st'.buf.flatten = [] :=
  ⟨by decide, by decide, C1_round_trip _ _ (by decide) (by decide)⟩

/-- C2: with at least 3 bytes `b0 b1 b2` at the logical front of the
buffer, extraction reads the type as `b0` and the payload length as
`b1 + 256 * b2` (little-endian), and when that many payload bytes are
buffered the emitted packet's data is exactly those following bytes. -/
theorem C2_header_fields (st : State) (sc : Bool) (b0 b1 b2 : Nat) (rest : List Nat)
    (hflat : st.buf.flatten = b0 :: b1 :: b2 :: rest)
    (hlen : st.bufLen = st.buf.flatten.length)
    (hhead : sc = false → HEADER_LENGTH ≤ (st.buf.headD []).length)
    (hfull : b1 + 256 * b2 ≤ rest.length) :
    tryReadPacket st sc
      = some (some ⟨b0, rest.take (b1 + 256 * b2)⟩,
          ⟨[rest.drop (b1 + 256 * b2)], (rest.drop (b1 + 256 * b2)).length⟩) := by
  apply tryReadPacket_decode_some st sc _ _ hlen (fun hsc _ => hhead hsc)
  rw [hflat, decodeStep_cons3, if_pos hfull]

/-- Witness for C2: type byte 7, length bytes 2 and 0 (length 2),
payload split across two stored chunks. -/
theorem C2_header_fields_witness :
    (State.mk [[7, 2, 0], [170, 187]] 5).buf.flatten = 7 :: 2 :: 0 :: [170, 187] ∧
    (State.mk [[7, 2, 0], [170, 187]] 5).bufLen
      = (State.mk [[7, 2, 0], [170, 187]] 5).buf.flatten.length ∧
    2 + 256 * 0 ≤ ([170, 187] : List Nat).length ∧
    tryReadPacket (State.mk [[7, 2, 0], [170, 187]] 5) true
      = some (some ⟨7, ([170, 187] : List Nat).take (2 + 256 * 0)⟩,
          ⟨[([170, 187] : List Nat).drop (2 + 256 * 0)],
            (([170, 187] : List Nat).drop (2 + 256 * 0)).length⟩) :=
  ⟨by decide, by decide, by decide,
    C2_header_fields _ true 7 2 0 [170, 187] (by decide) (by decide)
      (by intro h; cases h) (by decide)⟩

/-- C3: feeding a structured (non-byte) chunk reports the object-mode
error, emits no packet, and returns with the framer state unchanged, so
subsequent byte input is framed as if the erroneous feed had not
happened. -/
theorem C3_object_mode_error (st : State) (enc : String → List Nat) :
    transform Chunk.obj enc st
        = .error "PacketStream does not support writable object mode." st ∧
    ∀ ps st', transform Chunk.obj enc st ≠ .ok ps st' :=
  ⟨rfl, fun ps st' h => by cases h⟩

/-- C4: after any sequence of byte feeds from a fresh framer, the
flattened buffer is exactly the received bytes minus the bytes of the
emitted packets, the cached count matches it, and no complete packet
remains buffered: the buffer is empty or starts a partial packet at a
header boundary. -/
theorem C4_buffer_invariant (chunks : List (List Nat)) (ps : List Packet) (st' : State)
    (hb : ∀ b ∈ chunks.flatten, b ≤ 255)
    (hrun : feedAll chunks initState = .ok ps st') :
    chunks.flatten = encodeAll ps ++ st'.buf.flatten ∧
    st'.bufLen = st'.buf.flatten.length ∧
    decodeStep st'.buf.flatten = none := by
  obtain ⟨st'', hrun'', hflat, hlen, hinv⟩ := feedAll_spec chunks initState Inv_initState
  rw [show initState.buf.flatten = ([] : List Nat) from rfl, List.nil_append]
    at hrun'' hflat hlen
  rw [hrun] at hrun''
  injection hrun'' with hps hst
  subst hst
  refine ⟨?_, hinv.1, hinv.2.2⟩
  rw [hps, hflat]
  exact (decodeAll_recover chunks.flatten.length chunks.flatten le_rfl hb).symm

/-- Witness for C4: one complete packet plus two leftover bytes across
two chunks. -/
theorem C4_buffer_invariant_witness :
    (∀ b ∈ ([[1, 2, 0, 170], [187, 5]] : List (List Nat)).flatten, b ≤ 255) ∧
    feedAll [[1, 2, 0, 170], [187, 5]] initState
      = .ok [Packet.mk 1 [170, 187]] ⟨[[5]], 1⟩ ∧
    ([[1, 2, 0, 170], [187, 5]] : List (List Nat)).flatten
      = encodeAll [Packet.mk 1 [170, 187]] ++ (State.mk [[5]] 1).buf.flatten ∧
    (State.mk [[5]] 1).bufLen = (State.mk [[5]] 1).buf.flatten.length ∧
    decodeStep (State.mk [[5]] 1).buf.flatten = none :=
  ⟨by decide, by decide,
    C4_buffer_invariant [[1, 2, 0, 170], [187, 5]] [Packet.mk 1 [170, 187]]
      ⟨[[5]], 1⟩ (by decide) (by decide)⟩

/-- C5: feeding any strict prefix of one encoded packet to a fresh
framer emits nothing; feeding the remaining bytes then emits exactly
that one packet and nothing else. -/
theorem C5_partial_then_complete (p : Packet) (k : Nat)
    (hv : ValidPacket p) (hk : k < (encodePacket p).length) :
    ∃ st₁ st₂, transformBytes ((encodePacket p).take k) initState = .ok [] st₁ ∧
      transformBytes ((encodePacket p).drop k) st₁ = .ok [p] st₂ ∧
      st₂.buf.flatten = [] := by
  have hr : decodeStep ((encodePacket p).take k) = none := decodeStep_take_encode p k hk
  obtain ⟨buf₁, hrun₁, hflat₁, hhd₁⟩ :=
    transformBytes_spec ((encodePacket p).take k) initState rfl (by decide)
  rw [show initState.buf.flatten = ([] : List Nat) from rfl, List.nil_append,
    decodeAll_none _ hr] at hrun₁ hflat₁ hhd₁
  dsimp only at hrun₁ hflat₁ hhd₁
  have hdec : decodeStep (encodePacket p) = some (p, []) := by
    have := decodeStep_encode p []
    rwa [List.append_nil] at this
  have hdAe : decodeAll (encodePacket p) = ([p], []) := by
    rw [decodeAll_some _ _ _ hdec, decodeAll_none _ (by decide)]
  obtain ⟨buf₂, hrun₂, hflat₂, hhd₂⟩ :=
    transformBytes_spec ((encodePacket p).drop k) ⟨buf₁, ((encodePacket p).take k).length⟩
    (by simp [hflat₁]) (fun hge => hhd₁ hge)
  rw [show (State.mk buf₁ ((encodePacket p).take k).length).buf = buf₁ from rfl,
    hflat₁, List.take_append_drop, hdAe] at hrun₂ hflat₂
  exact ⟨⟨buf₁, ((encodePacket p).take k).length⟩, ⟨buf₂, _⟩, hrun₁, hrun₂, hflat₂⟩

/-- Witness for C5: packet type 1, payload `[170, 187]`, split after 4
of its 7 encoded bytes (header complete, payload incomplete). -/
theorem C5_partial_then_complete_witness :
    ValidPacket ⟨1, [170, 187]⟩ ∧
    4 < (encodePacket ⟨1, [170, 187]⟩).length ∧
    ∃ st₁ st₂, transformBytes ((encodePacket ⟨1, [170, 187]⟩).take 4) initState
        = .ok [] st₁ ∧
      transformBytes ((encodePacket ⟨1, [170, 187]⟩).drop 4) st₁
        = .ok [⟨1, [170, 187]⟩] st₂ ∧
      st₂.buf.flatten = [] :=
  ⟨by decide, by decide, C5_partial_then_complete ⟨1, [170, 187]⟩ 4 (by decide) (by decide)⟩

/-- C6: one chunk holding any number of complete encoded packets plus
an optional trailing strict prefix of a further packet emits exactly
the complete packets, in order, and buffers the partial remainder. -/
theorem C6_multi_packet_chunk (ps : List Packet) (q : Packet) (j : Nat)
    (hv : ∀ x ∈ ps, ValidPacket x) (hq : ValidPacket q)
    (hj : j < (encodePacket q).length) :
    ∃ st', transformBytes (encodeAll ps ++ (encodePacket q).take j) initState
        = .ok ps st' ∧ st'.buf.flatten = (encodePacket q).take j := by
  obtain ⟨buf', hrun, hflat, hhd⟩ := transformBytes_spec
    (encodeAll ps ++ (encodePacket q).take j) initState rfl (by decide)
  rw [show initState.buf.flatten = ([] : List Nat) from rfl, List.nil_append,
    decodeAll_encodeAll_append ps _ (decodeStep_take_encode q j hj)] at hrun hflat
  exact ⟨_, hrun, hflat⟩

/-- Witness for C6: the spec's example chunk
`[1, 2, 0, 0xAA, 0xBB, 2, 0, 0]` yields `{type 1, [0xAA, 0xBB]}` then
`{type 2, []}` with nothing buffered. -/
theorem C6_multi_packet_chunk_witness :
    (∀ x ∈ [Packet.mk 1 [170, 187], Packet.mk 2 []], ValidPacket x) ∧
    ValidPacket ⟨0, []⟩ ∧ 0 < (encodePacket ⟨0, []⟩).length ∧
    ∃ st', transformBytes [1, 2, 0, 170, 187, 2, 0, 0] initState
        = .ok [Packet.mk 1 [170, 187], Packet.mk 2 []] st' ∧
      st'.buf.flatten = [] :=
  ⟨by decide, by decide, by decide,
    C6_multi_packet_chunk [Packet.mk 1 [170, 187], Packet.mk 2 []] ⟨0, []⟩ 0
      (by decide) (by decide) (by decide)⟩

/-- C7: a bare 3-byte header `[t, 0, 0]` (zero payload length)
immediately emits the packet `{type t, empty data}`, leaving nothing
buffered. -/
theorem C7_zero_length_payload (t : Nat) (ht : t ≤ 255) :
    ∃ st', transformBytes [t, 0, 0] initState = .ok [⟨t, []⟩] st' ∧
      st'.buf.flatten = [] ∧ st'.bufLen = 0 := by
  have henc : ([t, 0, 0] : List Nat) = encodeAll [⟨t, []⟩] := by
    simp [encodeAll, encodePacket]
  obtain ⟨buf', hrun, hflat, hhd⟩ := transformBytes_spec [t, 0, 0] initState rfl (by decide)
  have hdA : decodeAll ([t, 0, 0] : List Nat) = ([⟨t, []⟩], []) := by
    rw [henc, decodeAll_encodeAll]
  rw [show initState.buf.flatten = ([] : List Nat) from rfl, List.nil_append, hdA]
    at hrun hflat
  refine ⟨_, hrun, hflat, ?_⟩
  rfl

/-- Witness for C7 at type tag 5, the spec's example. -/
theorem C7_zero_length_payload_witness :
    5 ≤ 255 ∧
    ∃ st', transformBytes [5, 0, 0] initState = .ok [⟨5, []⟩] st' ∧
      st'.buf.flatten = [] ∧ st'.bufLen = 0 :=
  ⟨by decide, C7_zero_length_payload 5 (by decide)⟩

/-- C8: feeding an empty chunk emits nothing and leaves the logical
state unchanged — same buffered bytes, same byte count — and any
subsequent feeds emit exactly the same packets as without the empty
feed. -/
theorem C8_empty_chunk (st : State) (cs : List (List Nat)) (h : Inv st) :
    ∃ st₀, transformBytes [] st = .ok [] st₀ ∧
      st₀.buf.flatten = st.buf.flatten ∧ st₀.bufLen = st.bufLen ∧
      ∃ ps stA stB, feedAll cs st₀ = .ok ps stA ∧ feedAll cs st = .ok ps stB ∧
        stA.buf.flatten = stB.buf.flatten := by
  obtain ⟨hlen, hhead, hrem⟩ := h
  obtain ⟨buf₀, hrun₀, hflat₀, hhd₀⟩ := transformBytes_spec [] st hlen hhead
  rw [List.append_nil, decodeAll_none _ hrem] at hrun₀ hflat₀ hhd₀
  dsimp only at hrun₀ hflat₀ hhd₀
  have hinv₀ : Inv ⟨buf₀, st.buf.flatten.length⟩ :=
    ⟨by simp [hflat₀], fun hge => hhd₀ hge, by rw [show (State.mk buf₀
      st.buf.flatten.length).buf = buf₀ from rfl, hflat₀]; exact hrem⟩
  obtain ⟨stA, hrunA, hflatA, hlenA, hinvA⟩ := feedAll_spec cs _ hinv₀
  obtain ⟨stB, hrunB, hflatB, hlenB, hinvB⟩ := feedAll_spec cs st ⟨hlen, hhead, hrem⟩
  rw [show (State.mk buf₀ st.buf.flatten.length).buf = buf₀ from rfl, hflat₀]
    at hrunA hflatA
  exact ⟨⟨buf₀, st.buf.flatten.length⟩, hrun₀, hflat₀, hlen.symm,
    _, stA, stB, hrunA, hrunB, hflatA.trans hflatB.symm⟩

/-- Witness for C8: a buffered partial packet (header `[1, 5, 0]`, one
of five payload bytes present), then two more feeds. -/
theorem C8_empty_chunk_witness :
    Inv ⟨[[1, 5, 0, 9]], 4⟩ ∧
    ∃ st₀, transformBytes [] ⟨[[1, 5, 0, 9]], 4⟩ = .ok [] st₀ ∧
      st₀.buf.flatten = (State.mk [[1, 5, 0, 9]] 4).buf.flatten ∧
      st₀.bufLen = (State.mk [[1, 5, 0, 9]] 4).bufLen ∧
      ∃ ps stA stB, feedAll [[8, 7], [6, 5]] st₀ = .ok ps stA ∧
        feedAll [[8, 7], [6, 5]] ⟨[[1, 5, 0, 9]], 4⟩ = .ok ps stB ∧
        stA.buf.flatten = stB.buf.flatten :=
  ⟨by decide, C8_empty_chunk ⟨[[1, 5, 0, 9]], 4⟩ [[8, 7], [6, 5]] (by decide)⟩

/-- C9: from a fresh framer, every sequence of byte feeds succeeds —
the header reads never go out of bounds, so the `RangeError` branch is
unreachable — because whenever at least 3 bytes are buffered the first
stored chunk holds at least 3 bytes. -/
theorem C9_reads_in_bounds (chunks : List (List Nat)) :
    ∃ ps st', feedAll chunks initState = .ok ps st' ∧
      (HEADER_LENGTH ≤ st'.bufLen → HEADER_LENGTH ≤ (st'.buf.headD []).length) := by
  obtain ⟨st', hrun, hflat, hlen, hinv⟩ := feedAll_spec chunks initState Inv_initState
  exact ⟨_, st', hrun, hinv.2.1⟩

/-- C10: a string chunk is not rejected as non-byte input: it is
converted with the supplied encoding and framed exactly as if the
encoded bytes had been fed, and from any invariant state the feed
succeeds with the packets of those bytes. -/
theorem C10_string_chunk (enc : String → List Nat) (s : String) (st : State)
    (h : Inv st) :
    transform (Chunk.str s) enc st = transform (Chunk.bytes (enc s)) enc st ∧
    ∃ ps st', transform (Chunk.str s) enc st = .ok ps st' := by
  refine ⟨rfl, ?_⟩
  obtain ⟨hlen, hhead, hrem⟩ := h
  obtain ⟨buf', hrun, -, -⟩ := transformBytes_spec (enc s) st hlen hhead
  exact ⟨_, _, hrun⟩

/-- Witness for C10: an encoding that sends every string to the bytes
`[5, 0, 0]`, fed as a string to a fresh framer. -/
theorem C10_string_chunk_witness :
    Inv initState ∧
    (transform (Chunk.str "abc") (fun _ => [5, 0, 0]) initState
        = transform (Chunk.bytes ((fun _ : String => ([5, 0, 0] : List Nat)) "abc"))
            (fun _ => [5, 0, 0]) initState ∧
      ∃ ps st', transform (Chunk.str "abc") (fun _ => [5, 0, 0]) initState
          = .ok ps st') :=
  ⟨by decide, C10_string_chunk (fun _ => [5, 0, 0]) "abc" initState (by decide)⟩

end PacketStream
